import Mathlib

/-
Verification of the selective tree materialization engine of the
repotojson repository (src/zip_to_json_app.py and src/zip2json.py).

Shallow embedding conventions:
- a Python str is modelled as a list of characters (Str), compared by
  code point exactly as Python compares strings;
- a Python dict is modelled as an association list in insertion order:
  assignment to an existing key replaces the value in place, assignment
  to a fresh key appends at the end, lookup returns the first match;
- a Python set accumulated during a loop is modelled by accumulating a
  list and deduplicating before the final sorted conversion;
- zip_file_obj.read together with the utf-8 replacement decode is
  modelled as a function Str to Except Str Str: ok carries the decoded
  text, error carries the exception message caught by the except arm.
-/

abbrev Str := List Char

/-- Embed a Lean string literal as the character-list model of a Python str. -/
def chars (s : String) : Str := s.data

/-- Python s.endswith(c) for a one-character suffix c. -/
def pyEndsWith (s : Str) (c : Char) : Bool :=
  match s.getLast? with
  | some d => d = c
  | none => false

/-- Python s.split(c) for a one-character separator: an empty string yields
one empty component, a separator at either end yields an empty component. -/
def pySplit (c : Char) : Str → List Str
  | [] => [[]]
  | x :: xs =>
    match pySplit c xs with
    | [] => [[]]
    | s :: rest => if x = c then [] :: s :: rest else (x :: s) :: rest

/-- Python c.join(parts) for the separator character given. -/
def joinSep (c : Char) : List Str → Str
  | [] => []
  | [s] => s
  | s :: t => s ++ c :: joinSep c t

/-- Slash join, the only join the source uses. -/
def joinSegs (parts : List Str) : Str := joinSep '/' parts

/-- Python lexicographic string order, less-or-equal, by code point. -/
def strle : Str → Str → Bool
  | [], _ => true
  | _ :: _, [] => false
  | a :: as, b :: bs => if a = b then strle as bs else decide (a < b)

/-- Python lexicographic string order, strictly-less, by code point. -/
def strlt : Str → Str → Bool
  | [], [] => false
  | [], _ :: _ => true
  | _ :: _, [] => false
  | a :: as, b :: bs => if a = b then strlt as bs else decide (a < b)

/-- The order Python sorted uses on strings, as a Prop. -/
def pyle (a b : Str) : Prop := strle a b = true

instance : DecidableRel pyle := fun a b => instDecidableEqBool (strle a b) true

/-- Python s.strip(c): remove every copy of c from both ends. -/
def pyStrip (c : Char) (s : Str) : Str :=
  ((s.dropWhile (fun x => x == c)).reverse.dropWhile (fun x => x == c)).reverse

/-- A node of the file tree: the dicts with a type tag built by
build_file_tree_from_zip.  A file node carries its full path; a folder node
carries its trailing-slash path and its children dict. -/
inductive Node where
  | file (path : Str)
  | folder (path : Str) (children : List (Str × Node))

/-- A level of the tree: a Python dict from segment name to node. -/
abbrev FTree := List (Str × Node)

/-- Python dict lookup: first (unique) matching key. -/
def alGet : FTree → Str → Option Node
  | [], _ => none
  | (k, n) :: t, key => if k = key then some n else alGet t key

/-- Python dict assignment: replace in place if the key exists, else append. -/
def alSet : FTree → Str → Node → FTree
  | [], key, v => [(key, v)]
  | (k, n) :: t, key, v => if k = key then (k, v) :: t else (k, n) :: alSet t key v

/-- One iteration group of the inner for-loop of build_file_tree_from_zip
(src/zip_to_json_app.py lines 18-38): walk the remaining parts, done holds
the parts already consumed, full is the whole path being inserted.
A final part stores a file node; a missing intermediate part creates a
folder node; an intermediate part held by a file node is promoted in place
to a folder node with fresh children and the trailing-slash path. -/
def insertPath (t : FTree) (done : List Str) (parts : List Str) (full : Str) : FTree :=
  match parts with
  | [] => t
  | [part] => alSet t part (Node.file full)
  | part :: rest =>
    match alGet t part with
    | some (Node.folder p cs) =>
        alSet t part (Node.folder p (insertPath cs (done ++ [part]) rest full))
    | _ =>
        alSet t part (Node.folder (joinSegs (done ++ [part]) ++ ['/'])
          (insertPath [] (done ++ [part]) rest full))

/-- build_file_tree_from_zip (src/zip_to_json_app.py lines 9-39, identical in
src/zip2json.py lines 22-47): names models zip_file_obj.namelist(); entries
ending in a slash are dropped, the rest are sorted and inserted in order. -/
def build_file_tree_from_zip (names : List Str) : FTree :=
  let file_paths := List.insertionSort pyle (names.filter (fun n => !(pyEndsWith n '/')))
  file_paths.foldl (fun t p => insertPath t [] (pySplit '/' p) p) []

mutual
/-- The paths stored in the file nodes of a node, in tree order. -/
def nodeFiles : Node → List Str
  | Node.file p => [p]
  | Node.folder _ cs => treeFilesAux cs
/-- The paths stored in the file nodes of a tree level, in tree order. -/
def treeFilesAux : FTree → List Str
  | [] => []
  | (_, n) :: t => nodeFiles n ++ treeFilesAux t
end

/-- The set of File-node paths of a tree, as a list in tree order. -/
def treeFiles (t : FTree) : List Str := treeFilesAux t

/-- The loop body of get_node_details_from_tree (src/zip_to_json_app.py
lines 66-76): walk segment by segment; a folder node before the last
segment descends into its children, the node at the last segment is
returned, anything else yields none. -/
def walkTree : FTree → List Str → Option Node
  | _, [] => none
  | t, [p] => alGet t p
  | t, p :: rest =>
    match alGet t p with
    | some (Node.folder _ cs) => walkTree cs rest
    | _ => none

/-- get_node_details_from_tree (src/zip_to_json_app.py lines 61-77,
identical in src/zip2json.py lines 89-102). -/
def get_node_details_from_tree (path_key : Str) (tree_root : FTree) : Option Node :=
  walkTree tree_root (pySplit '/' (pyStrip '/' path_key))

/-- The selected paths drawn from st.session_state.checkbox_states
(src/zip_to_json_app.py line 84): the keys whose stored flag is true. -/
def selectedOf (checkbox : List (Str × Bool)) : List Str :=
  (checkbox.filter (fun e => e.2)).map (fun e => e.1)

/-- The files one selected path contributes inside the loop of
collect_final_selected_files (src/zip_to_json_app.py lines 88-98): a file
node contributes its stored path, a folder node contributes every zip file
path starting with the folder path, an unresolved path contributes nothing. -/
def contribList (tree : FTree) (all_files : List Str) (sel : Str) : List Str :=
  match get_node_details_from_tree sel tree with
  | some (Node.file p) => [p]
  | some (Node.folder fp _) => all_files.filter (fun f => fp.isPrefixOf f)
  | none => []

/-- collect_final_selected_files (src/zip_to_json_app.py lines 79-99,
identical in src/zip2json.py lines 104-119): the Python set of collected
paths is modelled by list accumulation plus dedup, and sorted(list(...))
by the insertion sort under the Python string order. -/
def collect_final_selected_files (checkbox : List (Str × Bool)) (tree : FTree)
    (names : List Str) : List Str :=
  let all_files := names.filter (fun n => !(pyEndsWith n '/'))
  let final := (selectedOf checkbox).foldl (fun acc sel => acc ++ contribList tree all_files sel) []
  List.insertionSort pyle final.dedup

/-- Python list comparison on lists of strings, strictly-less, elementwise. -/
def listStrLt : List Str → List Str → Bool
  | [], [] => false
  | [], _ :: _ => true
  | _ :: _, [] => false
  | a :: as, b :: bs => if a = b then listStrLt as bs else strlt a b

/-- Python min over a nonempty list, first minimum wins. -/
def pyMinList (x : List Str) (xs : List (List Str)) : List Str :=
  xs.foldl (fun m y => if listStrLt y m then y else m) x

/-- Python max over a nonempty list, first maximum wins. -/
def pyMaxList (x : List Str) (xs : List (List Str)) : List Str :=
  xs.foldl (fun m y => if listStrLt m y then y else m) x

/-- The common-component loop of posixpath.commonpath: componentwise common
prefix of the minimal and maximal split paths. -/
def commonComps : List Str → List Str → List Str
  | c :: cs, d :: ds => if c = d then c :: commonComps cs ds else []
  | _, _ => []

/-- os.path.commonpath for relative POSIX paths, as the source calls it:
split each path on the slash, drop empty and dot components, take the
componentwise common prefix of the lexicographic minimum and maximum,
and join it back with slashes. -/
def commonpath (paths : List Str) : Str :=
  match paths.map (fun p => (pySplit '/' p).filter
      (fun comp => decide (comp ≠ [] ∧ comp ≠ ['.']))) with
  | [] => []
  | s :: ss => joinSegs (commonComps (pyMinList s ss) (pyMaxList s ss))

/-- os.path.dirname for POSIX paths: everything up to the last slash, with
trailing slashes then stripped unless the head is all slashes. -/
def dirname (p : Str) : Str :=
  let head := (p.reverse.dropWhile (fun x => !(x == '/'))).reverse
  if head ≠ [] ∧ ¬ (head.all (fun x => x == '/') = true) then
    (head.reverse.dropWhile (fun x => x == '/')).reverse
  else head

/-- The common-prefix computation of build_nested_json_from_paths in
src/zip_to_json_app.py (lines 110-118): commonpath, then dirname when some
selected path fails the trailing-slash extension test, then a trailing
slash is appended, then "./" collapses to the empty string. -/
def commonPrefix_app (selected : List Str) : Str :=
  if selected.length > 0 then
    let cp0 := commonpath selected
    let cp1 :=
      if cp0 ≠ [] ∧ ((selected.filter (fun f => !(f == cp0))).all
          (fun f => (cp0 ++ ['/']).isPrefixOf f || f == cp0)) = false
      then dirname cp0 else cp0
    let cp2 := if cp1 ≠ [] ∧ pyEndsWith cp1 '/' = false then cp1 ++ ['/'] else cp1
    if cp2 = chars "./" then [] else cp2
  else []

/-- The common-prefix computation of build_nested_json_from_paths in
src/zip2json.py (lines 125-134): like the app version but the dirname step
also fires when the commonpath itself is one of the selected files, and a
bare "." is also collapsed to the empty string. -/
def commonPrefix_zip2json (selected : List Str) : Str :=
  if selected.length > 0 then
    let cp0 := commonpath selected
    let cp2 :=
      if cp0 ≠ [] then
        let isFile := selected.contains cp0 && !(pyEndsWith cp0 '/')
        let sep : Str := if pyEndsWith cp0 '/' then [] else ['/']
        let cp1 :=
          if (isFile || !((selected.filter (fun f => !(f == cp0))).all
              (fun f => (cp0 ++ sep).isPrefixOf f))) = true
          then dirname cp0 else cp0
        if cp1 ≠ [] ∧ pyEndsWith cp1 '/' = false then cp1 ++ ['/'] else cp1
      else cp0
    if cp2 = chars "./" ∨ cp2 = chars "." then [] else cp2
  else []

/-- A JSON value of the assembled document: a decoded text leaf or a
nested mapping in insertion order. -/
inductive JVal where
  | str (s : Str)
  | obj (entries : List (Str × JVal))

/-- Python dict lookup on the output document. -/
def jget : List (Str × JVal) → Str → Option JVal
  | [], _ => none
  | (k, v) :: t, key => if k = key then some v else jget t key

/-- Python dict assignment on the output document. -/
def jset : List (Str × JVal) → Str → JVal → List (Str × JVal)
  | [], key, v => [(key, v)]
  | (k, w) :: t, key, v => if k = key then (k, v) :: t else (k, w) :: jset t key v

/-- The segment loop of build_nested_json_from_paths (src/zip_to_json_app.py
lines 135-144): the last segment stores the content string; a non-last
segment that is missing or holds a non-dict value is overwritten with a
fresh empty dict before descending. -/
def insertContent (doc : List (Str × JVal)) (segs : List Str) (content : Str) :
    List (Str × JVal) :=
  match segs with
  | [] => doc
  | [seg] => jset doc seg (JVal.str content)
  | seg :: rest =>
    match jget doc seg with
    | some (JVal.obj entries) => jset doc seg (JVal.obj (insertContent entries rest content))
    | _ => jset doc seg (JVal.obj (insertContent [] rest content))

/-- The ASCII apostrophe used by the error f-string. -/
def quoteCh : Char := Char.ofNat 39

/-- The diagnostic leaf of the except arm (src/zip_to_json_app.py line 126):
Error reading/decoding file quoted-path colon message dot. -/
def errString (p e : Str) : Str :=
  chars "Error reading/decoding file " ++ quoteCh :: p ++ quoteCh :: chars ": " ++ e ++ chars "."

/-- The try/except of build_nested_json_from_paths (src/zip_to_json_app.py
lines 122-126): a successful read yields the decoded text, a raised
exception is absorbed into the diagnostic string. -/
def readContent (read : Str → Except Str Str) (p : Str) : Str :=
  match read p with
  | Except.ok s => s
  | Except.error e => errString p e

/-- build_nested_json_from_paths (src/zip_to_json_app.py lines 101-146):
compute the common prefix, then for each selected path read its content,
strip the prefix when present, and insert segment by segment. -/
def build_nested_json_from_paths (selected_file_paths : List Str)
    (read : Str → Except Str Str) : List (Str × JVal) :=
  if selected_file_paths = [] then []
  else
    let cpfx := commonPrefix_app selected_file_paths
    selected_file_paths.foldl (fun doc p =>
      let content := readContent read p
      let rel := if cpfx ≠ [] ∧ cpfx.isPrefixOf p = true then p.drop cpfx.length else p
      insertContent doc (pySplit '/' rel) content) []

/-- Concatenated image of a character function, used by the serializer. -/
def concatMap (f : Char → Str) : Str → Str
  | [] => []
  | c :: cs => f c ++ concatMap f cs

/-- One hexadecimal digit, lower case, as json.dumps prints escapes. -/
def hexDigitChar (n : Nat) : Char :=
  if n < 10 then Char.ofNat (48 + n) else Char.ofNat (87 + n)

/-- Four hexadecimal digits of a code unit. -/
def hex4 (n : Nat) : Str :=
  [hexDigitChar (n / 4096 % 16), hexDigitChar (n / 256 % 16),
   hexDigitChar (n / 16 % 16), hexDigitChar (n % 16)]

/-- The per-character escaping of json.dumps with ensure_ascii: the two
special characters, the five short escapes, and a u-escape for everything
outside the printable ASCII range, with surrogate pairs beyond the basic
plane. -/
def escapeChar (c : Char) : Str :=
  if c = Char.ofNat 34 then [Char.ofNat 92, Char.ofNat 34]
  else if c = Char.ofNat 92 then [Char.ofNat 92, Char.ofNat 92]
  else if c = Char.ofNat 10 then [Char.ofNat 92, 'n']
  else if c = Char.ofNat 13 then [Char.ofNat 92, 'r']
  else if c = Char.ofNat 9 then [Char.ofNat 92, 't']
  else if c = Char.ofNat 8 then [Char.ofNat 92, 'b']
  else if c = Char.ofNat 12 then [Char.ofNat 92, 'f']
  else if c.toNat < 32 ∨ c.toNat > 126 then
    if c.toNat < 65536 then Char.ofNat 92 :: 'u' :: hex4 c.toNat
    else Char.ofNat 92 :: 'u' :: hex4 (55296 + (c.toNat - 65536) / 1024) ++
         Char.ofNat 92 :: 'u' :: hex4 (56320 + (c.toNat - 65536) % 1024)
  else [c]

/-- A quoted, escaped JSON string literal. -/
def dumpsStr (s : Str) : Str :=
  Char.ofNat 34 :: concatMap escapeChar s ++ [Char.ofNat 34]

mutual
/-- json.dumps(value, indent 2) on the document model (src/zip_to_json_app.py
line 202): keys in insertion order, item separator comma newline, key
separator colon space, closing brace on its own indented line. -/
def dumpsVal : Nat → JVal → Str
  | _, JVal.str s => dumpsStr s
  | _, JVal.obj [] => [Char.ofNat 123, Char.ofNat 125]
  | ind, JVal.obj (e :: es) =>
      Char.ofNat 123 :: Char.ofNat 10 :: dumpsEntries (ind + 2) (e :: es) ++
      Char.ofNat 10 :: (List.replicate ind ' ' ++ [Char.ofNat 125])
/-- The comma-newline separated members of a JSON object at an indent. -/
def dumpsEntries : Nat → List (Str × JVal) → Str
  | _, [] => []
  | ind, [(k, v)] =>
      List.replicate ind ' ' ++ dumpsStr k ++ ':' :: ' ' :: dumpsVal ind v
  | ind, (k, v) :: e :: es =>
      (List.replicate ind ' ' ++ dumpsStr k ++ ':' :: ' ' :: dumpsVal ind v) ++
      ',' :: Char.ofNat 10 :: dumpsEntries ind (e :: es)
end

/-- The convert pipeline behind the Convert button (src/zip_to_json_app.py
lines 189-202): resolve the selection, assemble the nested document, and
serialize it with json.dumps at indent 2. -/
def convertPipeline (checkbox : List (Str × Bool)) (tree : FTree) (names : List Str)
    (read : Str → Except Str Str) : Str :=
  dumpsVal 0 (JVal.obj (build_nested_json_from_paths
    (collect_final_selected_files checkbox tree names) read))

-- Sanity checks of the embedding against the Python semantics.
example : pySplit '/' (chars "a/b") = [chars "a", chars "b"] := by decide
example : pySplit '/' (chars "") = [[]] := by decide
example : pySplit '/' (chars "a/") = [chars "a", []] := by decide
example : pyStrip '/' (chars "/a/b/") = chars "a/b" := by decide
example : joinSegs [chars "a", chars "b"] = chars "a/b" := by decide
example : strle (chars "a") (chars "a/b") = true := by decide
example : strle (chars "a.txt") (chars "a/b") = true := by decide
example : dirname (chars "x/y/a.txt") = chars "x/y" := by decide
example : dirname (chars "x") = chars "" := by decide
example : commonpath [chars "x/a.txt", chars "x/y/b.txt"] = chars "x" := by decide
example : commonpath [chars "x/y/a.txt"] = chars "x/y/a.txt" := by decide
example : commonpath [chars "a.txt", chars "b.txt"] = chars "" := by decide
example :
    treeFiles (build_file_tree_from_zip [chars "a", chars "a/b"]) = [chars "a/b"] := by decide
example :
    build_file_tree_from_zip [chars "b/c", chars "a"] =
      [(chars "a", Node.file (chars "a")),
       (chars "b", Node.folder (chars "b/") [(chars "c", Node.file (chars "b/c"))])] := rfl
example : commonPrefix_app [chars "x/y/a.txt", chars "x/y/b.txt"] = chars "x/y/" := by decide
example : commonPrefix_app [chars "a"] = chars "a/" := by decide
example : commonPrefix_zip2json [chars "x/y/a.txt", chars "x/y/b.txt"] = chars "x/y/" := by decide
example : commonPrefix_zip2json [chars "a"] = chars "" := by decide

theorem strle_refl (a : Str) : strle a a = true := by
  induction a with
  | nil => rfl
  | cons c cs ih => simp [strle, ih]

theorem strle_trans : ∀ a b c : Str, strle a b = true → strle b c = true → strle a c = true := by
  intro a
  induction a with
  | nil => intro b c _ _; rfl
  | cons x xs ih =>
    intro b c h1 h2
    cases b with
    | nil => simp [strle] at h1
    | cons y ys =>
      cases c with
      | nil => simp [strle] at h2
      | cons z zs =>
        simp only [strle] at h1 h2 ⊢
        by_cases hxy : x = y
        · subst hxy
          by_cases hyz : x = z
          · subst hyz
            simp only [if_pos rfl] at h1 h2 ⊢
            exact ih ys zs h1 h2
          · simp only [if_pos rfl] at h1
            simp only [if_neg hyz] at h2 ⊢
            exact h2
        · by_cases hyz : y = z
          · subst hyz
            simp only [if_neg hxy] at h1 ⊢
            exact h1
          · simp only [if_neg hxy] at h1
            simp only [if_neg hyz] at h2
            have hlt : x < z := lt_trans (of_decide_eq_true h1) (of_decide_eq_true h2)
            simp only [if_neg (ne_of_lt hlt)]
            exact decide_eq_true hlt

theorem strle_total : ∀ a b : Str, strle a b = true ∨ strle b a = true := by
  intro a
  induction a with
  | nil => intro b; left; rfl
  | cons x xs ih =>
    intro b
    cases b with
    | nil => right; rfl
    | cons y ys =>
      by_cases hxy : x = y
      · subst hxy
        rcases ih ys with h | h
        · left; simp [strle, h]
        · right; simp [strle, h]
      · rcases lt_trichotomy x y with h | h | h
        · left; simp [strle, hxy, h]
        · exact absurd h hxy
        · right; simp [strle, Ne.symm hxy, h]

theorem strle_antisymm : ∀ a b : Str, strle a b = true → strle b a = true → a = b := by
  intro a
  induction a with
  | nil =>
    intro b h1 h2
    cases b with
    | nil => rfl
    | cons y ys => simp [strle] at h2
  | cons x xs ih =>
    intro b h1 h2
    cases b with
    | nil => simp [strle] at h1
    | cons y ys =>
      by_cases hxy : x = y
      · subst hxy
        simp only [strle, if_pos rfl] at h1 h2
        rw [ih ys h1 h2]
      · simp only [strle, if_neg hxy, if_neg (Ne.symm hxy)] at h1 h2
        exact absurd (lt_trans (of_decide_eq_true h1) (of_decide_eq_true h2)) (lt_irrefl x)

instance : IsTrans Str pyle := ⟨fun a b c => strle_trans a b c⟩
instance : IsTotal Str pyle := ⟨fun a b => strle_total a b⟩
instance : IsAntisymm Str pyle := ⟨fun a b => strle_antisymm a b⟩

theorem pySplit_ne_nil (c : Char) (s : Str) : pySplit c s ≠ [] := by
  cases s with
  | nil => simp [pySplit]
  | cons x xs =>
    rcases h : pySplit c xs with _ | ⟨s0, rest⟩
    · simp [pySplit, h]
    · by_cases hx : x = c <;> simp [pySplit, h, hx]

theorem joinSegs_pySplit (s : Str) : joinSegs (pySplit '/' s) = s := by
  induction s with
  | nil => rfl
  | cons x xs ih =>
    rcases h : pySplit '/' xs with _ | ⟨s0, rest⟩
    · exact absurd h (pySplit_ne_nil _ _)
    · have ih2 : joinSep '/' (s0 :: rest) = xs := by
        rw [h] at ih; exact ih
      by_cases hx : x = '/'
      · subst hx
        simp only [pySplit, h, if_pos rfl]
        show joinSep '/' ([] :: s0 :: rest) = '/' :: xs
        simp only [joinSep, List.nil_append]
        rw [ih2]
      · simp only [pySplit, h, if_neg hx]
        cases rest with
        | nil =>
          simp only [joinSep] at ih2 ⊢
          show (x :: s0 : Str) = x :: xs
          rw [ih2]
        | cons r rs =>
          show joinSep '/' ((x :: s0) :: r :: rs) = x :: xs
          simp only [joinSep] at ih2 ⊢
          rw [← ih2]
          rfl

theorem joinSep_append (c : Char) : ∀ xs ys : List Str, xs ≠ [] → ys ≠ [] →
    joinSep c (xs ++ ys) = joinSep c xs ++ c :: joinSep c ys := by
  intro xs
  induction xs with
  | nil => intro ys h _; exact absurd rfl h
  | cons a as ih =>
    intro ys _ hys
    cases as with
    | nil =>
      cases ys with
      | nil => exact absurd rfl hys
      | cons y ys' => simp [joinSep]
    | cons b bs =>
      have hrec := ih ys (by simp) hys
      simp only [List.cons_append] at hrec ⊢
      show joinSep c (a :: (b :: (bs ++ ys))) = joinSep c (a :: b :: bs) ++ c :: joinSep c ys
      simp only [joinSep]
      rw [hrec]
      simp [List.append_assoc]

theorem joinSegs_append (xs ys : List Str) (hx : xs ≠ []) (hy : ys ≠ []) :
    joinSegs (xs ++ ys) = joinSegs xs ++ '/' :: joinSegs ys :=
  joinSep_append '/' xs ys hx hy

theorem pyStrip_cons_sep (c : Char) (s : Str) : pyStrip c (c :: s) = pyStrip c s := by
  simp [pyStrip, List.dropWhile_cons]

theorem pyStrip_append_sep (c : Char) (s : Str) : pyStrip c (s ++ [c]) = pyStrip c s := by
  unfold pyStrip
  rcases h : s.dropWhile (fun x => x == c) with _ | ⟨a, as⟩
  · rw [List.dropWhile_append]
    simp [h, List.dropWhile_cons]
  · rw [List.dropWhile_append]
    simp only [h, List.isEmpty_cons, if_neg Bool.false_ne_true]
    simp [List.reverse_append, List.dropWhile_cons]

theorem treeFilesAux_append (a b : FTree) :
    treeFilesAux (a ++ b) = treeFilesAux a ++ treeFilesAux b := by
  induction a with
  | nil => rfl
  | cons e t ih =>
    cases e with
    | mk k n => simp [treeFilesAux, ih, List.append_assoc]

theorem alGet_eq_none (t : FTree) (k : Str) :
    alGet t k = none ↔ ∀ e ∈ t, e.1 ≠ k := by
  induction t with
  | nil => simp [alGet]
  | cons e t ih =>
    cases e with
    | mk k0 n =>
      constructor
      · intro h
        by_cases hk : k0 = k
        · simp only [alGet, if_pos hk] at h
          exact absurd h (by simp)
        · simp only [alGet, if_neg hk] at h
          intro e he
          rcases List.mem_cons.mp he with rfl | he2
          · exact hk
          · exact (ih.mp h) e he2
      · intro h
        have hk : k0 ≠ k := h (k0, n) (by simp)
        simp only [alGet, if_neg hk]
        exact ih.mpr (fun e he => h e (List.mem_cons_of_mem _ he))

theorem alGet_some_decomp (t : FTree) (k : Str) (n : Node) (h : alGet t k = some n) :
    ∃ A B, t = A ++ (k, n) :: B ∧ ∀ e ∈ A, e.1 ≠ k := by
  induction t with
  | nil => simp [alGet] at h
  | cons e t ih =>
    cases e with
    | mk k0 n0 =>
      by_cases hk : k0 = k
      · subst hk
        have h2 : n0 = n := by simpa [alGet] using h
        exact ⟨[], t, by rw [h2]; rfl, by simp⟩
      · simp only [alGet, if_neg hk] at h
        obtain ⟨A, B, hAB, hA⟩ := ih h
        refine ⟨(k0, n0) :: A, B, by rw [hAB]; rfl, ?_⟩
        intro e he
        rcases List.mem_cons.mp he with rfl | he2
        · exact hk
        · exact hA e he2

theorem alSet_eq_append (t : FTree) (k : Str) (v : Node) (h : ∀ e ∈ t, e.1 ≠ k) :
    alSet t k v = t ++ [(k, v)] := by
  induction t with
  | nil => rfl
  | cons e t ih =>
    cases e with
    | mk k0 n0 =>
      have hk : k0 ≠ k := h (k0, n0) (by simp)
      simp only [alSet, if_neg hk, List.cons_append]
      rw [ih (fun e he => h e (List.mem_cons_of_mem _ he))]

theorem alSet_of_decomp (A B : FTree) (k : Str) (n v : Node) (hA : ∀ e ∈ A, e.1 ≠ k) :
    alSet (A ++ (k, n) :: B) k v = A ++ (k, v) :: B := by
  induction A with
  | nil => simp [alSet]
  | cons e A ih =>
    cases e with
    | mk k0 n0 =>
      have hk : k0 ≠ k := hA (k0, n0) (by simp)
      simp only [List.cons_append, alSet, if_neg hk, List.append_eq]
      rw [ih (fun e he => hA e (List.mem_cons_of_mem _ he))]

mutual
/-- Positional well-formedness of a node stored under key k below the
directory context ctx: the stored path is the joined context. -/
def nodeWF : List Str → Str → Node → Prop
  | ctx, k, Node.file p => p = joinSegs (ctx ++ [k])
  | ctx, k, Node.folder p cs => p = joinSegs (ctx ++ [k]) ++ ['/'] ∧ treeWF (ctx ++ [k]) cs
/-- Positional well-formedness of every entry of a tree level. -/
def treeWF : List Str → FTree → Prop
  | _, [] => True
  | ctx, (k, n) :: t => nodeWF ctx k n ∧ treeWF ctx t
end

theorem treeWF_append (ctx : List Str) (a b : FTree) :
    treeWF ctx (a ++ b) ↔ treeWF ctx a ∧ treeWF ctx b := by
  induction a with
  | nil => simp [treeWF]
  | cons e t ih =>
    cases e with
    | mk k n => simp [treeWF, ih, and_assoc]

theorem treeWF_mem (ctx : List Str) (t : FTree) (h : treeWF ctx t) (k : Str) (n : Node)
    (hm : (k, n) ∈ t) : nodeWF ctx k n := by
  induction t with
  | nil => simp at hm
  | cons e t ih =>
    cases e with
    | mk k0 n0 =>
      rcases List.mem_cons.mp hm with heq | hm2
      · rw [Prod.mk.injEq] at heq
        rw [← heq.1, ← heq.2] at h
        exact h.1
      · exact ih h.2 hm2

mutual
theorem nodeFiles_sub (ctx : List Str) (k : Str) (hc : ctx ≠ []) :
    ∀ (n : Node), nodeWF ctx k n → ∀ s ∈ nodeFiles n, (joinSegs ctx ++ ['/']) <+: s
  | Node.file p, hn, s, hs => by
      simp only [nodeWF] at hn
      simp only [nodeFiles, List.mem_singleton] at hs
      subst hs
      rw [hn, joinSegs_append ctx [k] hc (by simp)]
      show (joinSegs ctx ++ ['/']) <+: joinSegs ctx ++ '/' :: joinSegs [k]
      exact ⟨joinSegs [k], by simp⟩
  | Node.folder p cs, hn, s, hs => by
      simp only [nodeFiles] at hs
      have hrec := treeFiles_sub (ctx ++ [k]) (by simp) cs hn.2 s hs
      refine List.IsPrefix.trans ?_ hrec
      rw [joinSegs_append ctx [k] hc (by simp)]
      show (joinSegs ctx ++ ['/']) <+: (joinSegs ctx ++ '/' :: joinSegs [k]) ++ ['/']
      exact ⟨joinSegs [k] ++ ['/'], by simp⟩
theorem treeFiles_sub (ctx : List Str) (hc : ctx ≠ []) :
    ∀ (t : FTree), treeWF ctx t → ∀ s ∈ treeFilesAux t, (joinSegs ctx ++ ['/']) <+: s
  | [], _, s, hs => by simp [treeFilesAux] at hs
  | (k, n) :: t, hw, s, hs => by
      simp only [treeFilesAux] at hs
      rcases List.mem_append.mp hs with h | h
      · exact nodeFiles_sub ctx k hc n hw.1 s h
      · exact treeFiles_sub ctx hc t hw.2 s h
end

theorem perm_shift {α : Type} (a : α) (A C B X : List α) (h : X.Perm (C ++ [a])) :
    (A ++ (X ++ B)).Perm ((A ++ (C ++ B)) ++ [a]) := by
  have h1 : (A ++ (X ++ B)).Perm ((A ++ C) ++ (a :: B)) := by
    have h0 := List.Perm.append_left A (List.Perm.append_right B h)
    simpa [List.append_assoc] using h0
  have h3 : ((A ++ C) ++ (a :: B)).Perm (((A ++ C) ++ B) ++ [a]) :=
    List.perm_middle.trans (List.perm_append_singleton a _).symm
  have h4 := h1.trans h3
  simpa [List.append_assoc] using h4

theorem mem_treeFilesAux_mid (A B : FTree) (k : Str) (n : Node) (s : Str)
    (hs : s ∈ nodeFiles n) : s ∈ treeFilesAux (A ++ (k, n) :: B) := by
  rw [treeFilesAux_append]
  apply List.mem_append_right
  simp only [treeFilesAux]
  exact List.mem_append_left _ hs

theorem insertPath_cons_none (t : FTree) (done : List Str) (part r : Str) (rs : List Str)
    (full : Str) (hg : alGet t part = none) :
    insertPath t done (part :: r :: rs) full =
    alSet t part (Node.folder (joinSegs (done ++ [part]) ++ ['/'])
      (insertPath [] (done ++ [part]) (r :: rs) full)) := by
  simp only [insertPath, hg]

theorem insertPath_cons_file (t : FTree) (done : List Str) (part r : Str) (rs : List Str)
    (full p : Str) (hg : alGet t part = some (Node.file p)) :
    insertPath t done (part :: r :: rs) full =
    alSet t part (Node.folder (joinSegs (done ++ [part]) ++ ['/'])
      (insertPath [] (done ++ [part]) (r :: rs) full)) := by
  simp only [insertPath, hg]

theorem insertPath_cons_folder (t : FTree) (done : List Str) (part r : Str) (rs : List Str)
    (full p : Str) (cs : FTree) (hg : alGet t part = some (Node.folder p cs)) :
    insertPath t done (part :: r :: rs) full =
    alSet t part (Node.folder p (insertPath cs (done ++ [part]) (r :: rs) full)) := by
  simp only [insertPath, hg]

/-- The central invariant of one insertion of build_file_tree_from_zip: in a
well-formed tree holding neither the inserted path, nor a file that is a
directory-prefix of it, nor a file it is a directory-prefix of, the
insertion adds exactly the one file path and preserves well-formedness. -/
theorem insertPath_spec : ∀ (parts : List Str) (t : FTree) (done : List Str) (full : Str),
    full = joinSegs (done ++ parts) →
    treeWF done t →
    full ∉ treeFilesAux t →
    (∀ s ∈ treeFilesAux t, ¬ ((s ++ ['/']) <+: full)) →
    (∀ s ∈ treeFilesAux t, ¬ ((full ++ ['/']) <+: s)) →
    parts ≠ [] →
    (treeFilesAux (insertPath t done parts full)).Perm (treeFilesAux t ++ [full]) ∧
    treeWF done (insertPath t done parts full)
  | [], _, _, _, _, _, _, _, _, hne => absurd rfl hne
  | [part], t, done, full, hfull, hwf, H1, _, H3, _ => by
    simp only [insertPath]
    rcases hg : alGet t part with _ | n
    · have hkeys := (alGet_eq_none t part).mp hg
      rw [alSet_eq_append t part _ hkeys]
      constructor
      · rw [treeFilesAux_append]
        simp only [treeFilesAux, nodeFiles, List.append_nil]
        exact List.Perm.refl _
      · exact (treeWF_append done t _).mpr ⟨hwf, ⟨hfull, trivial⟩⟩
    · obtain ⟨A, B, hAB, hA⟩ := alGet_some_decomp t part n hg
      subst hAB
      cases n with
      | file p =>
        have hp : p = joinSegs (done ++ [part]) :=
          treeWF_mem done _ hwf part (Node.file p)
            (List.mem_append_right _ (List.mem_cons_self _ _))
        have hmem : full ∈ treeFilesAux (A ++ (part, Node.file p) :: B) := by
          apply mem_treeFilesAux_mid
          simp only [nodeFiles, List.mem_singleton]
          rw [hfull, hp]
        exact absurd hmem H1
      | folder p cs =>
        have hn := treeWF_mem done _ hwf part (Node.folder p cs)
          (List.mem_append_right _ (List.mem_cons_self _ _))
        have hcsnil : treeFilesAux cs = [] := by
          cases hcs0 : treeFilesAux cs with
          | nil => rfl
          | cons s ss =>
            have hs : s ∈ treeFilesAux cs := by
              rw [hcs0]; exact List.mem_cons_self _ _
            have hpre := treeFiles_sub (done ++ [part]) (by simp) cs hn.2 s hs
            have hsin : s ∈ treeFilesAux (A ++ (part, Node.folder p cs) :: B) :=
              mem_treeFilesAux_mid A B part _ s (by simpa [nodeFiles] using hs)
            rw [← hfull] at hpre
            exact absurd hpre (H3 s hsin)
        rw [alSet_of_decomp A B part _ _ hA]
        constructor
        · rw [treeFilesAux_append, treeFilesAux_append]
          simp only [treeFilesAux, nodeFiles, hcsnil]
          exact perm_shift full _ [] _ [full] (List.Perm.refl _)
        · have hw2 := (treeWF_append done A _).mp hwf
          exact (treeWF_append done A _).mpr ⟨hw2.1, ⟨hfull, hw2.2.2⟩⟩
  | part :: r :: rs, t, done, full, hfull, hwf, H1, H2, H3, _ => by
    have hfull2 : full = joinSegs ((done ++ [part]) ++ (r :: rs)) := by
      rw [hfull]
      congr 1
      simp
    have hsplit : full = (joinSegs (done ++ [part]) ++ ['/']) ++ joinSegs (r :: rs) := by
      rw [hfull2, joinSegs_append (done ++ [part]) (r :: rs) (by simp) (by simp)]
      simp
    rcases hg : alGet t part with _ | n
    · have hkeys := (alGet_eq_none t part).mp hg
      have hchild := insertPath_spec (r :: rs) [] (done ++ [part]) full hfull2 trivial
        (by simp [treeFilesAux]) (by simp [treeFilesAux]) (by simp [treeFilesAux]) (by simp)
      rw [insertPath_cons_none t done part r rs full hg, alSet_eq_append t part _ hkeys]
      have hchildPerm : (treeFilesAux (insertPath [] (done ++ [part]) (r :: rs) full)).Perm [full] :=
        hchild.1
      have hwfnew : treeWF done [(part, Node.folder (joinSegs (done ++ [part]) ++ ['/'])
          (insertPath [] (done ++ [part]) (r :: rs) full))] := ⟨⟨rfl, hchild.2⟩, trivial⟩
      constructor
      · rw [treeFilesAux_append]
        simp only [treeFilesAux, nodeFiles, List.append_nil]
        exact List.Perm.append_left _ hchildPerm
      · exact (treeWF_append done t _).mpr ⟨hwf, hwfnew⟩
    · cases n with
      | file p =>
        have hp : p = joinSegs (done ++ [part]) := by
          obtain ⟨A, B, hAB, _⟩ := alGet_some_decomp t part _ hg
          rw [hAB] at hwf
          exact treeWF_mem done _ hwf part (Node.file p)
            (List.mem_append_right _ (List.mem_cons_self _ _))
        have hmem : p ∈ treeFilesAux t := by
          obtain ⟨A, B, hAB, _⟩ := alGet_some_decomp t part _ hg
          rw [hAB]
          exact mem_treeFilesAux_mid A B part _ p (by simp [nodeFiles])
        have hpre : (p ++ ['/']) <+: full := by
          rw [hp, hsplit]
          exact List.prefix_append _ _
        exact absurd hpre (H2 p hmem)
      | folder p cs =>
        obtain ⟨A, B, hAB, hA⟩ := alGet_some_decomp t part _ hg
        subst hAB
        have hn := treeWF_mem done _ hwf part (Node.folder p cs)
          (List.mem_append_right _ (List.mem_cons_self _ _))
        have hsubset : ∀ s ∈ treeFilesAux cs, s ∈ treeFilesAux (A ++ (part, Node.folder p cs) :: B) :=
          fun s hs => mem_treeFilesAux_mid A B part _ s (by simpa [nodeFiles] using hs)
        have hrec := insertPath_spec (r :: rs) cs (done ++ [part]) full hfull2 hn.2
          (fun hmem => H1 (hsubset full hmem))
          (fun s hs => H2 s (hsubset s hs))
          (fun s hs => H3 s (hsubset s hs)) (by simp)
        have hwfnew : treeWF done [(part, Node.folder p (insertPath cs (done ++ [part]) (r :: rs) full))] :=
          ⟨⟨hn.1, hrec.2⟩, trivial⟩
        rw [insertPath_cons_folder _ done part r rs full p cs hg, alSet_of_decomp A B part _ _ hA]
        constructor
        · rw [treeFilesAux_append, treeFilesAux_append]
          simp only [treeFilesAux, nodeFiles]
          exact perm_shift full _ _ _ _ hrec.1
        · have hw2 := (treeWF_append done A _).mp hwf
          exact (treeWF_append done A _).mpr ⟨hw2.1, ⟨hwfnew.1, hw2.2.2⟩⟩

/-- Folding all insertions of a fresh, pairwise directory-prefix-free path
list extends the file set of a well-formed tree by exactly that list. -/
theorem build_fold_spec : ∀ (l : List Str) (t : FTree),
    treeWF [] t →
    (∀ p ∈ l, p ∉ treeFilesAux t) →
    (∀ p ∈ l, ∀ s ∈ treeFilesAux t, ¬ ((s ++ ['/']) <+: p) ∧ ¬ ((p ++ ['/']) <+: s)) →
    l.Nodup →
    (∀ p ∈ l, ∀ q ∈ l, ¬ ((p ++ ['/']) <+: q)) →
    (treeFilesAux (l.foldl (fun t p => insertPath t [] (pySplit '/' p) p) t)).Perm
      (treeFilesAux t ++ l) ∧
    treeWF [] (l.foldl (fun t p => insertPath t [] (pySplit '/' p) p) t) := by
  intro l
  induction l with
  | nil =>
    intro t hwf _ _ _ _
    exact ⟨by simp, hwf⟩
  | cons p l ih =>
    intro t hwf Hfresh Hpre hnd Hdp
    have hfull : p = joinSegs ([] ++ pySplit '/' p) := by
      simp [joinSegs_pySplit]
    have hstep := insertPath_spec (pySplit '/' p) t [] p hfull hwf
      (Hfresh p (List.mem_cons_self _ _))
      (fun s hs => (Hpre p (List.mem_cons_self _ _) s hs).1)
      (fun s hs => (Hpre p (List.mem_cons_self _ _) s hs).2)
      (pySplit_ne_nil _ _)
    have hmem1 : ∀ s, s ∈ treeFilesAux (insertPath t [] (pySplit '/' p) p) ↔
        (s ∈ treeFilesAux t ∨ s = p) := by
      intro s
      rw [hstep.1.mem_iff]
      simp
    have hpnl : p ∉ l := (List.nodup_cons.mp hnd).1
    have ih2 := ih (insertPath t [] (pySplit '/' p) p) hstep.2
      (fun q hq hmem => by
        rcases (hmem1 q).mp hmem with h | h
        · exact Hfresh q (List.mem_cons_of_mem _ hq) h
        · exact hpnl (h ▸ hq))
      (fun q hq s hs => by
        rcases (hmem1 s).mp hs with h | h
        · exact Hpre q (List.mem_cons_of_mem _ hq) s h
        · subst h
          exact ⟨Hdp s (List.mem_cons_self _ _) q (List.mem_cons_of_mem _ hq),
                 Hdp q (List.mem_cons_of_mem _ hq) s (List.mem_cons_self _ _)⟩)
      (List.Nodup.of_cons hnd)
      (fun a ha b hb => Hdp a (List.mem_cons_of_mem _ ha) b (List.mem_cons_of_mem _ hb))
    refine ⟨?_, ih2.2⟩
    have h5 := ih2.1.trans (List.Perm.append_right l hstep.1)
    simpa [List.append_assoc] using h5

theorem build_eq (names : List Str) :
    build_file_tree_from_zip names =
    (List.insertionSort pyle (names.filter (fun n => !(pyEndsWith n '/')))).foldl
      (fun t p => insertPath t [] (pySplit '/' p) p) [] := rfl

/-- C1 counterexample: on the non-empty duplicate-free input consisting of
the paths a and a/b, the file node for a is promoted to a folder, so the
File-node path set of the built tree is not the input set: the path a is an
input but not a File-node path. -/
theorem C1_counterexample :
    ¬ ((chars "a") ∈ treeFiles (build_file_tree_from_zip [chars "a", chars "a/b"]) ↔
       (chars "a") ∈ [chars "a", chars "a/b"]) := by decide

/-- C1 (amended): for every non-empty list of file path strings with unique
entries, none ending in the separator and none being a directory-prefix of
another (p followed by a slash is never a prefix of q), the set of paths
carried by the File nodes of build_file_tree_from_zip equals the input set.
The directory-prefix condition is forced by the promotion counterexample. -/
theorem C1_build_filePaths_amended (names : List Str)
    (hne : names ≠ [])
    (hnd : names.Nodup)
    (hfiles : ∀ p ∈ names, pyEndsWith p '/' = false)
    (hdirfree : ∀ p ∈ names, ∀ q ∈ names, ¬ ((p ++ ['/']) <+: q)) :
    ∀ p, (p ∈ treeFiles (build_file_tree_from_zip names) ↔ p ∈ names) := by
  intro p
  rw [build_eq, treeFiles]
  have hfeq : names.filter (fun n => !(pyEndsWith n '/')) = names := by
    apply List.filter_eq_self.mpr
    intro a ha
    simp [hfiles a ha]
  have hperm : (List.insertionSort pyle (names.filter (fun n => !(pyEndsWith n '/')))).Perm names := by
    rw [hfeq]
    exact List.perm_insertionSort pyle names
  have hnd2 := hperm.nodup_iff.mpr hnd
  have hdp2 : ∀ a ∈ List.insertionSort pyle (names.filter (fun n => !(pyEndsWith n '/'))),
      ∀ b ∈ List.insertionSort pyle (names.filter (fun n => !(pyEndsWith n '/'))),
      ¬ ((a ++ ['/']) <+: b) :=
    fun a ha b hb => hdirfree a (hperm.mem_iff.mp ha) b (hperm.mem_iff.mp hb)
  have hfold := build_fold_spec (List.insertionSort pyle (names.filter (fun n => !(pyEndsWith n '/'))))
    [] trivial (by simp [treeFilesAux]) (by simp [treeFilesAux]) hnd2 hdp2
  rw [hfold.1.mem_iff]
  constructor
  · intro h
    rcases List.mem_append.mp h with h | h
    · simp [treeFilesAux] at h
    · exact hperm.mem_iff.mp h
  · intro h
    exact List.mem_append_right _ (hperm.mem_iff.mpr h)

/-- C1 witness: the amended theorem applies to the concrete input
consisting of a/b and c. -/
theorem C1_witness :
    ([chars "a/b", chars "c"] : List Str) ≠ [] ∧
    (chars "a/b" ∈ treeFiles (build_file_tree_from_zip [chars "a/b", chars "c"]) ↔
      chars "a/b" ∈ [chars "a/b", chars "c"]) :=
  ⟨by decide,
   C1_build_filePaths_amended [chars "a/b", chars "c"] (by decide) (by decide)
     (by decide) (by decide) (chars "a/b")⟩

theorem isPrefixOf_true_iff (a b : Str) : a.isPrefixOf b = true ↔ a <+: b := by
  exact List.isPrefixOf_iff_prefix

/-- Concatenated image of a path function, the functional form of the
accumulating loop of collect_final_selected_files. -/
def catMap (g : Str → List Str) : List Str → List Str
  | [] => []
  | s :: t => g s ++ catMap g t

theorem mem_catMap (g : Str → List Str) (l : List Str) (p : Str) :
    p ∈ catMap g l ↔ ∃ s ∈ l, p ∈ g s := by
  induction l with
  | nil => simp [catMap]
  | cons s t ih => simp [catMap, ih]

theorem foldl_append_catMap (g : Str → List Str) : ∀ (l acc : List Str),
    l.foldl (fun a s => a ++ g s) acc = acc ++ catMap g l := by
  intro l
  induction l with
  | nil => intro acc; simp [catMap]
  | cons s t ih => intro acc; simp [catMap, ih, List.append_assoc]

theorem collect_eq (checkbox : List (Str × Bool)) (tree : FTree) (names : List Str) :
    collect_final_selected_files checkbox tree names =
    List.insertionSort pyle (List.dedup
      (catMap (contribList tree (names.filter (fun n => !(pyEndsWith n '/'))))
        (selectedOf checkbox))) := by
  show List.insertionSort pyle (List.dedup
      ((selectedOf checkbox).foldl (fun acc sel =>
        acc ++ contribList tree (names.filter (fun n => !(pyEndsWith n '/'))) sel) [])) = _
  rw [foldl_append_catMap]
  rfl

/-- What one selected path contributes to the final set, as a predicate on
candidate output paths. -/
def contributes (tree : FTree) (names : List Str) (sel p : Str) : Prop :=
  match get_node_details_from_tree sel tree with
  | some (Node.file fp) => p = fp
  | some (Node.folder fp _) =>
      p ∈ names.filter (fun n => !(pyEndsWith n '/')) ∧ fp <+: p
  | none => False

theorem mem_contribList (tree : FTree) (names : List Str) (sel p : Str) :
    p ∈ contribList tree (names.filter (fun n => !(pyEndsWith n '/'))) sel ↔
      contributes tree names sel p := by
  unfold contribList contributes
  cases h : get_node_details_from_tree sel tree with
  | none => simp
  | some n =>
    cases n with
    | file fp => simp
    | folder fp cs =>
      rw [List.mem_filter]
      exact and_congr_right (fun _ => isPrefixOf_true_iff fp p)

theorem collect_sorted (checkbox : List (Str × Bool)) (tree : FTree) (names : List Str) :
    List.Sorted pyle (collect_final_selected_files checkbox tree names) := by
  rw [collect_eq]
  exact List.sorted_insertionSort pyle _

theorem collect_nodup (checkbox : List (Str × Bool)) (tree : FTree) (names : List Str) :
    (collect_final_selected_files checkbox tree names).Nodup := by
  rw [collect_eq]
  exact (List.perm_insertionSort pyle _).symm.nodup (List.nodup_dedup _)

theorem collect_mem (checkbox : List (Str × Bool)) (tree : FTree) (names : List Str) (p : Str) :
    p ∈ collect_final_selected_files checkbox tree names ↔
      ∃ sel ∈ selectedOf checkbox, contributes tree names sel p := by
  rw [collect_eq, (List.perm_insertionSort pyle _).mem_iff, List.mem_dedup, mem_catMap]
  exact exists_congr (fun sel => and_congr_right (fun _ => mem_contribList tree names sel p))

theorem selectedOf_cons_true (sel : Str) (checkbox : List (Str × Bool)) :
    selectedOf ((sel, true) :: checkbox) = sel :: selectedOf checkbox := by
  simp [selectedOf]

/-- A selected path that resolves to no node leaves the collected result
unchanged. -/
theorem collect_skip_none (sel : Str) (checkbox : List (Str × Bool)) (tree : FTree)
    (names : List Str) (h : get_node_details_from_tree sel tree = none) :
    collect_final_selected_files ((sel, true) :: checkbox) tree names =
    collect_final_selected_files checkbox tree names := by
  rw [collect_eq, collect_eq, selectedOf_cons_true]
  have hnil : contribList tree (names.filter (fun n => !(pyEndsWith n '/'))) sel = [] := by
    unfold contribList
    rw [h]
  show List.insertionSort pyle (List.dedup (contribList _ _ sel ++ _)) = _
  rw [hnil]
  rfl

/-- C4: for every tree, selection state and full file list, the output of
collect_final_selected_files is sorted ascending in the Python string order
and duplicate-free, and a path is in the output exactly when some selected
path contributes it: a resolved File node contributes its stored path, and
a resolved Folder node contributes exactly the entries of the file list
that start with the folder's trailing-separator-inclusive path. -/
theorem C4_resolve_spec (checkbox : List (Str × Bool)) (tree : FTree) (names : List Str) :
    List.Sorted pyle (collect_final_selected_files checkbox tree names) ∧
    (collect_final_selected_files checkbox tree names).Nodup ∧
    (∀ p, p ∈ collect_final_selected_files checkbox tree names ↔
      ∃ sel ∈ selectedOf checkbox, contributes tree names sel p) :=
  ⟨collect_sorted checkbox tree names, collect_nodup checkbox tree names,
   collect_mem checkbox tree names⟩

/-- C9: a selected path that resolves to no node (the walk fails at some
segment or meets a File node before the last segment) contributes nothing
and raises no error: the result equals the result for the remaining
selected paths. -/
theorem C9_unresolvable_selection (sel : Str) (checkbox : List (Str × Bool)) (tree : FTree)
    (names : List Str) (h : get_node_details_from_tree sel tree = none) :
    collect_final_selected_files ((sel, true) :: checkbox) tree names =
    collect_final_selected_files checkbox tree names :=
  collect_skip_none sel checkbox tree names h

/-- C9 witness: the path zz resolves to no node in the tree built from the
single file a, and selecting it changes nothing. -/
theorem C9_witness :
    get_node_details_from_tree (chars "zz") (build_file_tree_from_zip [chars "a"]) = none ∧
    collect_final_selected_files [(chars "zz", true), (chars "a", true)]
      (build_file_tree_from_zip [chars "a"]) [chars "a"] =
    collect_final_selected_files [(chars "a", true)]
      (build_file_tree_from_zip [chars "a"]) [chars "a"] :=
  ⟨rfl, C9_unresolvable_selection (chars "zz") [(chars "a", true)]
    (build_file_tree_from_zip [chars "a"]) [chars "a"] rfl⟩

/-- C2 counterexample: in the tree built from the single file a, selecting
the root path (the empty string) yields the empty result, not the full
sorted file list: the tree dict has no node whose path is the empty string,
so the walk finds nothing. -/
theorem C2_counterexample :
    collect_final_selected_files [(chars "", true)]
      (build_file_tree_from_zip [chars "a"]) [chars "a"] = [] ∧
    collect_final_selected_files [(chars "", true)]
      (build_file_tree_from_zip [chars "a"]) [chars "a"] ≠ [chars "a"] := by decide

/-- C2 (amended): selecting the root path (the empty string) does not return
every file: whenever the top level of the tree holds no empty-name entry,
the empty path resolves to no node and contributes nothing, so the result
equals the result for the remaining selections alone. -/
theorem C2_root_selection_amended (checkbox : List (Str × Bool)) (tree : FTree)
    (names : List Str) (h : alGet tree (chars "") = none) :
    collect_final_selected_files ((chars "", true) :: checkbox) tree names =
    collect_final_selected_files checkbox tree names :=
  collect_skip_none (chars "") checkbox tree names h

/-- C2 witness: the amended theorem applies to the tree built from the
single file a with the root path and the file both selected. -/
theorem C2_witness :
    alGet (build_file_tree_from_zip [chars "a"]) (chars "") = none ∧
    collect_final_selected_files [(chars "", true), (chars "a", true)]
      (build_file_tree_from_zip [chars "a"]) [chars "a"] =
    collect_final_selected_files [(chars "a", true)]
      (build_file_tree_from_zip [chars "a"]) [chars "a"] :=
  ⟨rfl, C2_root_selection_amended [(chars "a", true)]
    (build_file_tree_from_zip [chars "a"]) [chars "a"] rfl⟩

/-- C10: node lookup is insensitive to one trailing or one leading
separator: the path key is stripped of surrounding separators before the
walk, so p, p with a trailing slash, and p with a leading slash resolve to
the same node or the same absence of a node. -/
theorem C10_separator_insensitive (tree : FTree) (p : Str) (hne : p ≠ []) :
    get_node_details_from_tree (p ++ ['/']) tree = get_node_details_from_tree p tree ∧
    get_node_details_from_tree ('/' :: p) tree = get_node_details_from_tree p tree := by
  unfold get_node_details_from_tree
  rw [pyStrip_append_sep, pyStrip_cons_sep]
  exact ⟨rfl, rfl⟩

/-- C10 witness: the lookup of a/b, a/b/ and /a/b agree on the tree built
from the single file a/b. -/
theorem C10_witness :
    (chars "a/b" : Str) ≠ [] ∧
    (get_node_details_from_tree (chars "a/b" ++ ['/']) (build_file_tree_from_zip [chars "a/b"]) =
      get_node_details_from_tree (chars "a/b") (build_file_tree_from_zip [chars "a/b"]) ∧
     get_node_details_from_tree ('/' :: chars "a/b") (build_file_tree_from_zip [chars "a/b"]) =
      get_node_details_from_tree (chars "a/b") (build_file_tree_from_zip [chars "a/b"])) :=
  ⟨by decide, C10_separator_insensitive (build_file_tree_from_zip [chars "a/b"])
    (chars "a/b") (by decide)⟩

/-- C3: evaluation of both common-prefix computations on the claimed inputs.
The zip2json version returns the three claimed values.  The
zip_to_json_app version agrees on the two-file inputs but returns
x/y/a.txt/ on the single-file input: its dirname guard never fires there
because the all() test ranges over an empty generator, contradicting its
own comment about going up when the common prefix is a file itself. -/
theorem C3_commonPrefix_eval :
    commonPrefix_zip2json [chars "x/y/a.txt"] = chars "x/y/" ∧
    commonPrefix_zip2json [chars "a.txt", chars "b.txt"] = chars "" ∧
    commonPrefix_zip2json [chars "x/a.txt", chars "x/y/b.txt"] = chars "x/" ∧
    commonPrefix_app [chars "x/y/a.txt"] = chars "x/y/a.txt/" ∧
    commonPrefix_app [chars "a.txt", chars "b.txt"] = chars "" ∧
    commonPrefix_app [chars "x/a.txt", chars "x/y/b.txt"] = chars "x/" := by decide

/-- C8: building from [a, a/b] yields a single top-level Folder a with path
a/ holding exactly one File child b with path a/b, and building from the
reversed input [a/b, a] yields the same tree. -/
theorem C8_promotion_order :
    build_file_tree_from_zip [chars "a", chars "a/b"] =
      [(chars "a", Node.folder (chars "a/") [(chars "b", Node.file (chars "a/b"))])] ∧
    build_file_tree_from_zip [chars "a/b", chars "a"] =
      build_file_tree_from_zip [chars "a", chars "a/b"] := ⟨rfl, rfl⟩

mutual
/-- The leaf text values of a document value, in tree order. -/
def jleavesVal : JVal → List Str
  | JVal.str s => [s]
  | JVal.obj es => jleavesEntries es
/-- The leaf text values of document entries, in tree order. -/
def jleavesEntries : List (Str × JVal) → List Str
  | [] => []
  | (_, v) :: t => jleavesVal v ++ jleavesEntries t
end

theorem jget_jset_self (doc : List (Str × JVal)) (k : Str) (v : JVal) :
    jget (jset doc k v) k = some v := by
  induction doc with
  | nil => simp [jget, jset]
  | cons e t ih =>
    cases e with
    | mk k0 v0 =>
      by_cases hk : k0 = k
      · simp [jset, if_pos hk, jget, hk]
      · simp [jset, if_neg hk, jget, if_neg hk, ih]

theorem jleaves_insert_empty (c : Str) : ∀ (rest : List Str), rest ≠ [] →
    jleavesVal (JVal.obj (insertContent [] rest c)) = [c]
  | [seg], _ => by
    simp [insertContent, jset, jleavesVal, jleavesEntries]
  | seg :: r :: rs, _ => by
    have ih : jleavesEntries (insertContent [] (r :: rs) c) = [c] :=
      jleaves_insert_empty c (r :: rs) (by simp)
    simp [insertContent, jget, jset, jleavesVal, jleavesEntries, ih]

/-- C6: when a segment that must serve as an intermediate mapping already
holds a string value, the insertion overwrites it with a fresh mapping built
from the empty dict and continues below it; the overwritten string is not
among the leaves of the fresh subtree, so the earlier content is gone from
that position of the document. -/
theorem C6_collision_overwrite (doc : List (Str × JVal)) (seg s c : Str) (rest : List Str)
    (hrest : rest ≠ []) (hget : jget doc seg = some (JVal.str s)) :
    insertContent doc (seg :: rest) c = jset doc seg (JVal.obj (insertContent [] rest c)) ∧
    jget (insertContent doc (seg :: rest) c) seg = some (JVal.obj (insertContent [] rest c)) ∧
    (s ≠ c → s ∉ jleavesVal (JVal.obj (insertContent [] rest c))) := by
  obtain ⟨r, rs, rfl⟩ : ∃ r rs, rest = r :: rs := by
    cases rest with
    | nil => exact absurd rfl hrest
    | cons r rs => exact ⟨r, rs, rfl⟩
  have heq : insertContent doc (seg :: r :: rs) c =
      jset doc seg (JVal.obj (insertContent [] (r :: rs) c)) := by
    simp [insertContent, hget]
  refine ⟨heq, ?_, ?_⟩
  · rw [heq, jget_jset_self]
  · intro hne
    rw [jleaves_insert_empty c (r :: rs) (by simp)]
    simp [hne]

/-- C6 witness: inserting a/b over a document where a holds a string leaf. -/
theorem C6_witness :
    ([chars "b"] : List Str) ≠ [] ∧
    (insertContent [(chars "a", JVal.str (chars "old"))] [chars "a", chars "b"] (chars "new") =
      jset [(chars "a", JVal.str (chars "old"))] (chars "a")
        (JVal.obj (insertContent [] [chars "b"] (chars "new"))) ∧
     jget (insertContent [(chars "a", JVal.str (chars "old"))] [chars "a", chars "b"]
        (chars "new")) (chars "a") =
      some (JVal.obj (insertContent [] [chars "b"] (chars "new"))) ∧
     (chars "old" ≠ chars "new" →
       chars "old" ∉ jleavesVal (JVal.obj (insertContent [] [chars "b"] (chars "new"))))) :=
  ⟨by decide, C6_collision_overwrite [(chars "a", JVal.str (chars "old"))] (chars "a")
    (chars "old") (chars "new") [chars "b"] (by decide) rfl⟩

/-- C5: a read that raises does not fail the assembly: the document equals
the one assembled with a byte source that successfully returns the
diagnostic string for that path and is unchanged elsewhere, and the
diagnostic contains both the file path and the error message. -/
theorem C5_unreadable_file (selected : List Str) (read : Str → Except Str Str) (p e : Str)
    (h : read p = Except.error e) :
    build_nested_json_from_paths selected read =
      build_nested_json_from_paths selected
        (fun q => if q = p then Except.ok (errString p e) else read q) ∧
    p <:+: errString p e ∧ e <:+: errString p e := by
  refine ⟨?_, ?_, ?_⟩
  · have hpt : ∀ q, readContent read q =
        readContent (fun q => if q = p then Except.ok (errString p e) else read q) q := by
      intro q
      by_cases hq : q = p
      · subst hq
        simp [readContent, h]
      · simp [readContent, hq]
    unfold build_nested_json_from_paths
    by_cases hsel : selected = []
    · simp [hsel]
    · simp only [if_neg hsel]
      congr 1
      funext doc q
      rw [hpt q]
  · exact ⟨chars "Error reading/decoding file " ++ [quoteCh],
      quoteCh :: chars ": " ++ e ++ chars ".",
      by simp [errString, List.append_assoc]⟩
  · exact ⟨chars "Error reading/decoding file " ++ quoteCh :: p ++ quoteCh :: chars ": ",
      chars ".",
      by simp [errString, List.append_assoc]⟩

/-- C5 witness: a byte source raising only for x.bin, with a sibling a.txt. -/
theorem C5_witness :
    (fun q => if q = chars "x.bin" then Except.error (chars "boom")
      else Except.ok (chars "ok") : Str → Except Str Str) (chars "x.bin") =
        Except.error (chars "boom") ∧
    (build_nested_json_from_paths [chars "a.txt", chars "x.bin"]
        (fun q => if q = chars "x.bin" then Except.error (chars "boom")
          else Except.ok (chars "ok")) =
      build_nested_json_from_paths [chars "a.txt", chars "x.bin"]
        (fun q => if q = chars "x.bin"
          then Except.ok (errString (chars "x.bin") (chars "boom"))
          else (fun q2 => if q2 = chars "x.bin" then Except.error (chars "boom")
            else Except.ok (chars "ok")) q) ∧
     chars "x.bin" <:+: errString (chars "x.bin") (chars "boom") ∧
     chars "boom" <:+: errString (chars "x.bin") (chars "boom")) :=
  ⟨rfl, C5_unreadable_file [chars "a.txt", chars "x.bin"]
    (fun q => if q = chars "x.bin" then Except.error (chars "boom")
      else Except.ok (chars "ok")) (chars "x.bin") (chars "boom") rfl⟩

/-- C7: the resolve-then-assemble-then-serialize pipeline is deterministic
in the selection set: two checkbox states whose selected path sets have the
same members produce byte-identical serialized output for the same tree,
file list and byte source; in particular two invocations with identical
arguments agree. -/
theorem C7_convert_deterministic (cb1 cb2 : List (Str × Bool)) (tree : FTree)
    (names : List Str) (read : Str → Except Str Str)
    (h : ∀ s, s ∈ selectedOf cb1 ↔ s ∈ selectedOf cb2) :
    convertPipeline cb1 tree names read = convertPipeline cb2 tree names read := by
  have hcoll : collect_final_selected_files cb1 tree names =
      collect_final_selected_files cb2 tree names := by
    apply List.eq_of_perm_of_sorted ?_ (collect_sorted cb1 tree names)
      (collect_sorted cb2 tree names)
    apply (List.perm_ext_iff_of_nodup (collect_nodup cb1 tree names)
      (collect_nodup cb2 tree names)).mpr
    intro a
    rw [collect_mem, collect_mem]
    constructor
    · rintro ⟨sel, hs, hc⟩
      exact ⟨sel, (h sel).mp hs, hc⟩
    · rintro ⟨sel, hs, hc⟩
      exact ⟨sel, (h sel).mpr hs, hc⟩
  unfold convertPipeline
  rw [hcoll]

/-- C7 witness: two iteration orders of the same selected set give the same
serialized output on the tree built from a and b. -/
theorem C7_witness :
    (∀ s, s ∈ selectedOf [(chars "a", true), (chars "b", true)] ↔
      s ∈ selectedOf [(chars "b", true), (chars "a", true)]) ∧
    convertPipeline [(chars "a", true), (chars "b", true)]
      (build_file_tree_from_zip [chars "a", chars "b"]) [chars "a", chars "b"]
      (fun _ => Except.ok (chars "ok")) =
    convertPipeline [(chars "b", true), (chars "a", true)]
      (build_file_tree_from_zip [chars "a", chars "b"]) [chars "a", chars "b"]
      (fun _ => Except.ok (chars "ok")) :=
  ⟨fun s => by simp [selectedOf, or_comm],
   C7_convert_deterministic [(chars "a", true), (chars "b", true)]
     [(chars "b", true), (chars "a", true)]
     (build_file_tree_from_zip [chars "a", chars "b"]) [chars "a", chars "b"]
     (fun _ => Except.ok (chars "ok"))
     (fun s => by simp [selectedOf, or_comm])⟩
